import Mathlib

/-!
Verification of the price-feed client core: a shallow embedding of the
trade store, the window extractor, the unique-price store and the
submission engine (src/db.ts and the OracleUpdater of src/index.ts).

Modelling conventions:
- a table is a `List` of rows, in insertion order;
- DECIMAL(20,8) prices are modelled as `Int` (the exact scaled decimal
  value); their SQL ordering and equality coincide with the Int order;
- timestamps and row ids are `Nat` (BIGINT ms epoch, SERIAL);
- a Date value is identified with its millisecond epoch (`getTime`);
- fallible externals (the per-row INSERT inside the window transaction,
  the submission RPC, the startup MAX(id) query) are parametrised by
  explicit oracles (`fails`, `submit`, `queryFails`); a caught exception
  is a returned flag, matching the try/catch structure of the source.
-/

namespace PriceFeed

/-- A row of the `trades` table (interface `Trade` of src/db.ts plus the
SERIAL dedup key semantics of `trade_id`). -/
structure Trade where
  symbol : String
  price : Int
  quantity : Int
  timestamp : Nat
  is_buyer_maker : Bool
  trade_id : String
deriving DecidableEq, Repr

/-- A row of the `unique_prices` table (interface `UniquePrice` of the
oracle module; `transaction_hash` is the nullable VARCHAR column). -/
structure UniquePriceRow where
  id : Nat
  symbol : String
  price : Int
  window_start : Nat
  window_end : Nat
  transaction_hash : Option String
deriving DecidableEq, Repr

/-! ## Trade insertion (insertTrade, src/db.ts)

INSERT INTO trades ... ON CONFLICT (trade_id) DO NOTHING: the row is
appended unless some stored row already carries the same trade_id. -/

def insertTrade (db : List Trade) (t : Trade) : List Trade :=
  if db.any (fun t0 => t0.trade_id == t.trade_id) then db else db ++ [t]

/-! ## Window extractor (getUniquePricesInWindow, src/db.ts)

SELECT DISTINCT price FROM trades WHERE symbol = $1 AND timestamp >= $2
AND timestamp < $3 ORDER BY price. -/

def tradeMatches (symbol : String) (t0 t1 : Nat) (t : Trade) : Bool :=
  t.symbol == symbol && decide (t0 ≤ t.timestamp) && decide (t.timestamp < t1)

def getUniquePricesInWindow (trades : List Trade) (symbol : String) (t0 t1 : Nat) : List Int :=
  List.insertionSort (· ≤ ·) ((trades.filter (tradeMatches symbol t0 t1)).map (fun t => t.price)).dedup

/-! ## Hash write-back (updatePriceTransactionHash, src/db.ts)

UPDATE unique_prices SET transaction_hash = $1 WHERE symbol = $2 AND
window_start = $3 AND transaction_hash IS NULL. -/

def updRow (symbol : String) (windowStart : Nat) (transactionHash : String) (r : UniquePriceRow) : UniquePriceRow :=
  if r.symbol == symbol && r.window_start == windowStart && r.transaction_hash.isNone
  then { r with transaction_hash := some transactionHash } else r

def updatePriceTransactionHash (db : List UniquePriceRow) (symbol : String) (windowStart : Nat) (transactionHash : String) : List UniquePriceRow :=
  db.map (updRow symbol windowStart transactionHash)

/-! ## Window persistence (insertUniquePriceWindow, src/db.ts)

Early return on an empty price list; otherwise BEGIN, one INSERT per
price (all sharing window_start/window_end), COMMIT; on any insert error
ROLLBACK and rethrow. `fails` is the oracle saying which INSERT throws;
the Bool of the result is the rethrown error, and on error the returned
table is the unchanged input (rollback). -/

def mkWindowRow (symbol : String) (price : Int) (ws we : Nat) (rowId : Nat) : UniquePriceRow :=
  { id := rowId, symbol := symbol, price := price, window_start := ws, window_end := we,
    transaction_hash := none }

def runWindowInserts (fails : Int → Bool) (symbol : String) (ws we : Nat) : Nat → List Int → Option (List UniquePriceRow)
  | _, [] => some []
  | n, p :: ps =>
    if fails p then none
    else (runWindowInserts fails symbol ws we (n + 1) ps).map (fun rows => mkWindowRow symbol p ws we n :: rows)

def insertUniquePriceWindow (fails : Int → Bool) (db : List UniquePriceRow) (symbol : String) (prices : List Int) (ws we : Nat) (nextId : Nat) : List UniquePriceRow × Bool :=
  if prices.length = 0 then (db, false)
  else
    match runWindowInserts fails symbol ws we nextId prices with
    | some rows => (db ++ rows, false)
    | none => (db, true)

/-- The committed rows of a fully successful window transaction: one row
per price, ids assigned serially from nextId, all sharing (ws, we). -/
def windowRowsSpec (symbol : String) (ws we : Nat) : Nat → List Int → List UniquePriceRow
  | _, [] => []
  | n, p :: ps => mkWindowRow symbol p ws we n :: windowRowsSpec symbol ws we (n + 1) ps

/-! ## Startup cursor recomputation (OracleUpdater.loadLastProcessedId)

SELECT MAX(id) as max_id FROM unique_prices, then
lastProcessedId = rows[0]?.max_id || 0: over an empty table MAX is NULL
and the cursor becomes 0; over a nonempty table it is the maximum id of
ALL rows (there is no transaction_hash filter in the query). A query
error is caught and logged, leaving the field at its previous value
(0 at startup). -/

def loadLastProcessedId (queryFails : Bool) (table : List UniquePriceRow) (lastProcessedId : Nat) : Nat :=
  if queryFails then lastProcessedId
  else (table.map (fun r => r.id)).foldl max 0

/-- Modelled from the claim wording for comparison (NOT from the source):
the cursor as the maximum id among rows already carrying a non-null
transaction_hash, with a fallback default when no such row exists. -/
def loadLastProcessedIdClaim (table : List UniquePriceRow) (fallback : Nat) : Nat :=
  let confirmed := table.filter (fun r => r.transaction_hash.isSome)
  if confirmed.isEmpty then fallback
  else (confirmed.map (fun r => r.id)).foldl max 0

/-- An unconfirmed row (transaction_hash NULL) with id 5, as the
unique_prices table can hold right before the first submission. -/
def cexRow : UniquePriceRow :=
  { id := 5, symbol := "XLMUSDT", price := 10000000, window_start := 0, window_end := 10000,
    transaction_hash := none }

/-! ## Helper lemmas about foldl max over Nat -/

theorem foldl_max_init_le (l : List Nat) (a : Nat) : a ≤ l.foldl max a := by
  induction l generalizing a with
  | nil => exact Nat.le_refl a
  | cons b l ih => exact Nat.le_trans (Nat.le_max_left a b) (ih (max a b))

theorem foldl_max_le_of_mem (l : List Nat) (a x : Nat) (hx : x ∈ l) : x ≤ l.foldl max a := by
  induction l generalizing a with
  | nil => cases hx
  | cons b l ih =>
    rcases List.mem_cons.mp hx with h | h
    · subst h
      exact Nat.le_trans (Nat.le_max_right a x) (foldl_max_init_le l (max a x))
    · exact ih (max a b) h

theorem foldl_max_eq_init_or_mem (l : List Nat) (a : Nat) :
    l.foldl max a = a ∨ l.foldl max a ∈ l := by
  induction l generalizing a with
  | nil => exact Or.inl rfl
  | cons b l ih =>
    rcases ih (max a b) with h | h
    · rw [List.foldl_cons, h]
      rcases max_choice a b with h2 | h2
      · exact Or.inl h2
      · exact Or.inr (by rw [h2]; exact List.mem_cons_self b l)
    · exact Or.inr (List.mem_cons_of_mem b h)

/-! ## Claim theorems (store layer) -/

/-- Claim C8: trade insertion is deduplicating and idempotent: a second
insert of the same trade is a no-op, and starting from a table with no
row of that trade_id, one and two inserts both leave exactly one stored
row carrying that trade_id. -/
theorem insertTrade_dedup_idempotent (db : List Trade) (t : Trade) :
    insertTrade (insertTrade db t) t = insertTrade db t
    ∧ (db.countP (fun t0 => t0.trade_id == t.trade_id) = 0 →
        (insertTrade db t).countP (fun t0 => t0.trade_id == t.trade_id) = 1
        ∧ (insertTrade (insertTrade db t) t).countP (fun t0 => t0.trade_id == t.trade_id) = 1) := by
  have hself : (insertTrade db t).any (fun t0 => t0.trade_id == t.trade_id) = true := by
    unfold insertTrade
    by_cases h : db.any (fun t0 => t0.trade_id == t.trade_id) = true
    · simp [h]
    · simp [h, List.any_append]
  have hstep : ∀ l : List Trade, l.any (fun t0 => t0.trade_id == t.trade_id) = true →
      insertTrade l t = l := by
    intro l hl
    simp [insertTrade, hl]
  have hnoop : insertTrade (insertTrade db t) t = insertTrade db t := hstep _ hself
  refine ⟨hnoop, fun h0 => ?_⟩
  have hall : ∀ a ∈ db, ¬((fun t0 => t0.trade_id == t.trade_id) a = true) :=
    List.countP_eq_zero.mp h0
  have hany : db.any (fun t0 => t0.trade_id == t.trade_id) = false :=
    List.any_eq_false.mpr hall
  have h1 : insertTrade db t = db ++ [t] := by simp [insertTrade, hany]
  have hc : (insertTrade db t).countP (fun t0 => t0.trade_id == t.trade_id) = 1 := by
    rw [h1, List.countP_append, h0]
    simp [List.countP_cons]
  exact ⟨hc, by rw [hnoop]; exact hc⟩

/-- Claim C2: the window extractor returns exactly the distinct prices of
the stored trades of the symbol inside the half-open window
start ≤ timestamp < end, sorted ascending, with no duplicates. -/
theorem getUniquePricesInWindow_correct (trades : List Trade) (symbol : String) (t0 t1 : Nat) :
    List.Sorted (· ≤ ·) (getUniquePricesInWindow trades symbol t0 t1)
    ∧ (getUniquePricesInWindow trades symbol t0 t1).Nodup
    ∧ ∀ p : Int, p ∈ getUniquePricesInWindow trades symbol t0 t1 ↔
        ∃ t ∈ trades, t.symbol = symbol ∧ t0 ≤ t.timestamp ∧ t.timestamp < t1 ∧ t.price = p := by
  refine ⟨List.sorted_insertionSort _ _, ?_, fun p => ?_⟩
  · exact ((List.perm_insertionSort _ _).nodup_iff).mpr (List.nodup_dedup _)
  · rw [getUniquePricesInWindow, (List.perm_insertionSort _ _).mem_iff, List.mem_dedup]
    simp only [List.mem_map, List.mem_filter, tradeMatches, Bool.and_eq_true, beq_iff_eq,
      decide_eq_true_eq]
    tauto

/-- Pointwise idempotence of the conditional hash update: once a row has
been given a hash by updRow, applying updRow again leaves it unchanged. -/
theorem updRow_idem (symbol : String) (ws : Nat) (hash : String) (r : UniquePriceRow) :
    updRow symbol ws hash (updRow symbol ws hash r) = updRow symbol ws hash r := by
  unfold updRow
  by_cases h : (r.symbol == symbol && r.window_start == ws && r.transaction_hash.isNone) = true
  · simp [h]
  · simp [h]

/-- Claim C7: the hash write-back is idempotent and only ever moves a
row from a NULL transaction_hash to a value: rows already carrying a
hash keep it untouched, rows not matching (symbol, window_start) are
unchanged, matching NULL rows get the new hash, and a second identical
call changes nothing (the model is a total function: no error). -/
theorem updatePriceTransactionHash_idempotent (db : List UniquePriceRow) (symbol : String) (ws : Nat) (hash : String) :
    updatePriceTransactionHash (updatePriceTransactionHash db symbol ws hash) symbol ws hash
      = updatePriceTransactionHash db symbol ws hash
    ∧ List.Forall₂ (fun r r2 : UniquePriceRow =>
        (∀ h0, r.transaction_hash = some h0 → r2.transaction_hash = some h0)
        ∧ (r2.transaction_hash = none → r.transaction_hash = none)
        ∧ (r.transaction_hash = none → r.symbol = symbol → r.window_start = ws →
            r2.transaction_hash = some hash)
        ∧ (¬(r.symbol = symbol ∧ r.window_start = ws) → r2 = r)
        ∧ r2.symbol = r.symbol ∧ r2.window_start = r.window_start ∧ r2.price = r.price
        ∧ r2.id = r.id)
      db (updatePriceTransactionHash db symbol ws hash) := by
  constructor
  · unfold updatePriceTransactionHash
    rw [List.map_map]
    exact List.map_congr_left fun r _ => updRow_idem symbol ws hash r
  · rw [updatePriceTransactionHash, List.forall₂_map_right_iff, List.forall₂_same]
    intro r _
    unfold updRow
    by_cases h : (r.symbol == symbol && r.window_start == ws && r.transaction_hash.isNone) = true
    · rw [if_pos h]
      simp only [Bool.and_eq_true, beq_iff_eq, Option.isNone_iff_eq_none] at h
      refine ⟨?_, ?_, fun _ _ _ => rfl, ?_, rfl, rfl, rfl, rfl⟩
      · intro h0 hh
        rw [h.2] at hh
        cases hh
      · intro hh
        cases hh
      · intro hn
        exact absurd ⟨h.1.1, h.1.2⟩ hn
    · rw [if_neg h]
      refine ⟨fun h0 hh => hh, fun hh => hh, ?_, fun _ => rfl, rfl, rfl, rfl, rfl⟩
      intro h1 h2 h3
      exact absurd (by simp [h1, h2, h3]) h

/-- The transactional per-price insert loop succeeds exactly when no
insert fails, and then produces the rows of windowRowsSpec. -/
theorem runWindowInserts_eq (fails : Int → Bool) (symbol : String) (ws we : Nat) (n : Nat) (prices : List Int) :
    runWindowInserts fails symbol ws we n prices =
      if prices.any fails then none else some (windowRowsSpec symbol ws we n prices) := by
  induction prices generalizing n with
  | nil => simp [runWindowInserts, windowRowsSpec]
  | cons p ps ih =>
    cases hp : fails p with
    | true => simp [runWindowInserts, hp]
    | false =>
      cases hps : ps.any fails with
      | true => simp [runWindowInserts, hp, hps, ih]
      | false => simp [runWindowInserts, windowRowsSpec, hp, hps, ih]

theorem windowRowsSpec_length (symbol : String) (ws we n : Nat) (prices : List Int) :
    (windowRowsSpec symbol ws we n prices).length = prices.length := by
  induction prices generalizing n with
  | nil => rfl
  | cons p ps ih => simp [windowRowsSpec, ih]

theorem windowRowsSpec_fields (symbol : String) (ws we n : Nat) (prices : List Int) :
    ∀ r ∈ windowRowsSpec symbol ws we n prices,
      r.window_start = ws ∧ r.window_end = we ∧ r.transaction_hash = none ∧ r.symbol = symbol := by
  induction prices generalizing n with
  | nil => intro r hr; cases hr
  | cons p ps ih =>
    intro r hr
    rcases List.mem_cons.mp hr with h | h
    · subst h
      exact ⟨rfl, rfl, rfl, rfl⟩
    · exact ih (n + 1) r h

/-- Claim C6: persisting a window is atomic: an empty price list writes
nothing and raises nothing; a nonempty list either commits exactly one
row per price, all sharing (window_start, window_end), or, if any insert
fails, leaves the table unchanged (rollback) and propagates the error. -/
theorem insertUniquePriceWindow_atomic (fails : Int → Bool) (db : List UniquePriceRow) (symbol : String) (prices : List Int) (ws we nextId : Nat) :
    insertUniquePriceWindow fails db symbol prices ws we nextId =
      (if prices = [] then (db, false)
       else if prices.any fails = true then (db, true)
       else (db ++ windowRowsSpec symbol ws we nextId prices, false))
    ∧ (windowRowsSpec symbol ws we nextId prices).length = prices.length
    ∧ ∀ r ∈ windowRowsSpec symbol ws we nextId prices,
        r.window_start = ws ∧ r.window_end = we ∧ r.transaction_hash = none ∧ r.symbol = symbol := by
  refine ⟨?_, windowRowsSpec_length symbol ws we nextId prices,
    windowRowsSpec_fields symbol ws we nextId prices⟩
  unfold insertUniquePriceWindow
  rw [runWindowInserts_eq]
  cases prices with
  | nil => simp
  | cons p ps =>
    cases hany : (p :: ps).any fails with
    | true => simp [hany]
    | false => simp [hany]

/-- Claim C1 counterexample: with a single unconfirmed row (id 5, NULL
transaction_hash) the startup query of the code yields cursor 5, while
the claimed rule (max id over rows with a non-null hash, else the
default) yields the default 0. -/
theorem loadLastProcessedId_hash_filter_cex :
    loadLastProcessedId false [cexRow] 0 = 5
    ∧ loadLastProcessedIdClaim [cexRow] 0 = 0
    ∧ loadLastProcessedId false [cexRow] 0 ≠ loadLastProcessedIdClaim [cexRow] 0 := by
  refine ⟨rfl, rfl, ?_⟩
  decide

/-- Claim C1 (amended): at startup the recomputed cursor is the maximum
id over ALL unique_prices rows, whether or not they carry a
transaction_hash; only for an empty table does it fall back to the
default 0. -/
theorem loadLastProcessedId_max_over_all_rows (table : List UniquePriceRow) (cur : Nat) :
    (∀ r ∈ table, r.id ≤ loadLastProcessedId false table cur)
    ∧ (loadLastProcessedId false table cur = 0
        ∨ ∃ r ∈ table, r.id = loadLastProcessedId false table cur) := by
  have hdef : loadLastProcessedId false table cur = (table.map (fun r => r.id)).foldl max 0 := by
    simp [loadLastProcessedId]
  constructor
  · intro r hr
    rw [hdef]
    exact foldl_max_le_of_mem _ 0 r.id (List.mem_map.mpr ⟨r, hr, rfl⟩)
  · rw [hdef]
    rcases foldl_max_eq_init_or_mem (table.map (fun r => r.id)) 0 with h | h
    · exact Or.inl h
    · rcases List.mem_map.mp h with ⟨r, hr, hid⟩
      exact Or.inr ⟨r, hr, hid⟩

/-- Claim C10: when the startup MAX(id) query fails the error is caught
and the cursor stays at its initial value 0 (the same value an empty
table produces), so every existing row, hashed or not, satisfies the
id-greater-than-cursor fetch filter of later ticks. -/
theorem loadLastProcessedId_failure_keeps_zero (table : List UniquePriceRow) (queryFails : Bool) :
    loadLastProcessedId true table 0 = 0
    ∧ loadLastProcessedId queryFails [] 0 = 0
    ∧ ∀ r ∈ table, 0 < r.id →
        r ∈ table.filter (fun r2 => decide (loadLastProcessedId true table 0 < r2.id)) := by
  refine ⟨rfl, ?_, ?_⟩
  · cases queryFails <;> simp [loadLastProcessedId]
  · intro r hr hid
    rw [List.mem_filter]
    refine ⟨hr, ?_⟩
    simpa [loadLastProcessedId] using hid

/-! ## Submission engine (OracleUpdater.checkAndUpdate, src/index.ts)

Per tick: fetch up to 100 rows with id > cursor ordered by
(window_start ASC, id ASC); group them by (symbol, window_start) in a
Map whose iteration order is insertion order; submit the groups
sequentially, advancing the cursor to the maxId of each successful
group and breaking out of the loop on the first failure. The submission
RPC (updateContract) catches everything and returns a Bool, modelled by
the oracle `submit`. -/

structure WindowGroup where
  symbol : String
  prices : List Int
  window_start : Nat
  maxId : Nat
deriving DecidableEq, Repr

def rowKey (r : UniquePriceRow) : String × Nat := (r.symbol, r.window_start)

def groupKey (g : WindowGroup) : String × Nat := (g.symbol, g.window_start)

/-- One step of the grouping loop of checkAndUpdate: look the key up in
the insertion-ordered map, create the group on a miss, then push the
price and update maxId. -/
def insertRow : List WindowGroup → UniquePriceRow → List WindowGroup
  | [], r => [{ symbol := r.symbol, prices := [r.price], window_start := r.window_start,
                maxId := r.id }]
  | g :: gs, r =>
    if groupKey g = rowKey r
    then { g with prices := g.prices ++ [r.price], maxId := max g.maxId r.id } :: gs
    else g :: insertRow gs r

def makeGroups (rows : List UniquePriceRow) : List WindowGroup :=
  rows.foldl insertRow []

/-- The ORDER BY window_start ASC, id ASC of the polling query. -/
def rowLe (a b : UniquePriceRow) : Prop :=
  a.window_start < b.window_start ∨ (a.window_start = b.window_start ∧ a.id ≤ b.id)

instance : DecidableRel rowLe := fun a b => by
  unfold rowLe
  exact inferInstance

instance : IsTotal UniquePriceRow rowLe := ⟨by
  intro a b
  unfold rowLe
  omega⟩

instance : IsTrans UniquePriceRow rowLe := ⟨by
  intro a b c
  unfold rowLe
  omega⟩

/-- SELECT ... FROM unique_prices WHERE id > $1 ORDER BY window_start
ASC, id ASC LIMIT 100. -/
def fetchBatch (table : List UniquePriceRow) (cursor : Nat) : List UniquePriceRow :=
  (List.insertionSort rowLe (table.filter (fun r => decide (cursor < r.id)))).take 100

/-- The sequential submission loop over the grouped windows: on success
the cursor moves to the maxId of the group and the loop continues; on
failure the loop breaks. Returns the final cursor and the trace of
groups whose submission was attempted, in order. -/
def runGroups (submit : WindowGroup → Bool) : Nat → List WindowGroup → Nat × List WindowGroup
  | c, [] => (c, [])
  | c, g :: gs =>
    if submit g then
      ((runGroups submit g.maxId gs).1, g :: (runGroups submit g.maxId gs).2)
    else (c, [g])

/-- One polling tick of the submission engine. -/
def checkAndUpdate (submit : WindowGroup → Bool) (table : List UniquePriceRow) (cursor : Nat) : Nat × List WindowGroup :=
  runGroups submit cursor (makeGroups (fetchBatch table cursor))

/-- The keys of a list in first-encounter order, each kept once: the
iteration order of a JS Map built by repeated insertion. -/
def firstKeys (ks : List (String × Nat)) : List (String × Nat) :=
  ks.foldl (fun acc k => if k ∈ acc then acc else acc ++ [k]) []

/-- The cursor after a run of successful groups: the maxId of the last
one, or the starting cursor when there is none. -/
def lastCursor (c : Nat) : List WindowGroup → Nat
  | [] => c
  | g :: gs => lastCursor g.maxId gs

/-- The rows of a batch carrying a given (symbol, window_start) key, in
batch order. -/
def keyRows (rows : List UniquePriceRow) (k : String × Nat) : List UniquePriceRow :=
  rows.filter (fun r => decide (rowKey r = k))

/-- The id of the first row of the batch carrying the key. -/
def firstIdOf (rows : List UniquePriceRow) (k : String × Nat) : Nat :=
  ((keyRows rows k).map (fun r => r.id)).headD 0

/-! ### Fetch lemmas -/

theorem fetchBatch_sorted (table : List UniquePriceRow) (cursor : Nat) :
    List.Sorted rowLe (fetchBatch table cursor) :=
  List.Pairwise.sublist (List.take_sublist _ _) (List.sorted_insertionSort rowLe _)

theorem fetchBatch_id_gt (table : List UniquePriceRow) (cursor : Nat) :
    ∀ r ∈ fetchBatch table cursor, cursor < r.id := by
  intro r hr
  unfold fetchBatch at hr
  have h2 := List.mem_of_mem_take hr
  have h3 := (List.perm_insertionSort rowLe _).mem_iff.mp h2
  rw [List.mem_filter] at h3
  simpa using h3.2

theorem fetchBatch_len_le (table : List UniquePriceRow) (cursor : Nat) :
    (fetchBatch table cursor).length ≤ 100 :=
  List.length_take_le _ _

theorem fetchBatch_mem_iff (table : List UniquePriceRow) (cursor : Nat)
    (hlen : (table.filter (fun r => decide (cursor < r.id))).length ≤ 100) :
    ∀ r, r ∈ fetchBatch table cursor ↔ r ∈ table ∧ cursor < r.id := by
  intro r
  unfold fetchBatch
  rw [List.take_of_length_le, (List.perm_insertionSort rowLe _).mem_iff, List.mem_filter]
  · simp
  · rw [(List.perm_insertionSort rowLe _).length_eq]
    exact hlen

/-! ### firstKeys lemmas -/

theorem firstKeys_append_singleton (ks : List (String × Nat)) (k : String × Nat) :
    firstKeys (ks ++ [k]) = if k ∈ firstKeys ks then firstKeys ks else firstKeys ks ++ [k] := by
  unfold firstKeys
  rw [List.foldl_append]
  rfl

theorem mem_firstKeys (ks : List (String × Nat)) : ∀ k, k ∈ firstKeys ks ↔ k ∈ ks := by
  induction ks using List.reverseRecOn with
  | nil =>
    intro k
    simp [firstKeys]
  | append_singleton ks k2 ih =>
    intro k
    rw [firstKeys_append_singleton]
    by_cases h : k2 ∈ firstKeys ks
    · rw [if_pos h]
      have hk2 : k2 ∈ ks := (ih k2).mp h
      rw [ih k, List.mem_append, List.mem_singleton]
      constructor
      · exact Or.inl
      · rintro (hk | rfl)
        · exact hk
        · exact hk2
    · rw [if_neg h, List.mem_append, List.mem_append, ih k]

theorem firstKeys_nodup (ks : List (String × Nat)) : (firstKeys ks).Nodup := by
  induction ks using List.reverseRecOn with
  | nil => simp [firstKeys]
  | append_singleton ks k2 ih =>
    rw [firstKeys_append_singleton]
    by_cases h : k2 ∈ firstKeys ks
    · rw [if_pos h]
      exact ih
    · rw [if_neg h]
      simpa [List.nodup_append] using ⟨ih, h⟩

/-! ### Grouping lemmas -/

theorem makeGroups_append (rows : List UniquePriceRow) (r : UniquePriceRow) :
    makeGroups (rows ++ [r]) = insertRow (makeGroups rows) r := by
  unfold makeGroups
  rw [List.foldl_concat]

/-- The group a row opens on a Map miss: prices [price], maxId the row id. -/
def freshGroup (r : UniquePriceRow) : WindowGroup :=
  { symbol := r.symbol, prices := [r.price], window_start := r.window_start, maxId := r.id }

theorem insertRow_map_key (gs : List WindowGroup) (r : UniquePriceRow) :
    (insertRow gs r).map groupKey =
      if rowKey r ∈ gs.map groupKey then gs.map groupKey
      else gs.map groupKey ++ [rowKey r] := by
  induction gs with
  | nil =>
    simp [insertRow, groupKey, rowKey]
  | cons g gs ih =>
    by_cases h : groupKey g = rowKey r
    · have hmem : rowKey r ∈ (g :: gs).map groupKey := by
        rw [List.map_cons]
        exact h ▸ List.mem_cons_self _ _
      rw [if_pos hmem]
      simp only [insertRow, if_pos h, List.map_cons]
      rfl
    · have hne : rowKey r ≠ groupKey g := fun hh => h hh.symm
      simp only [insertRow, if_neg h, List.map_cons, ih]
      by_cases h2 : rowKey r ∈ gs.map groupKey
      · rw [if_pos h2, if_pos (List.mem_cons_of_mem _ h2)]
      · have hn : rowKey r ∉ groupKey g :: gs.map groupKey := by
          rw [List.mem_cons]
          rintro (hh | hh)
          · exact hne hh
          · exact h2 hh
        rw [if_neg h2, if_neg hn]
        rfl

theorem insertRow_mem_spec (gs : List WindowGroup) (r : UniquePriceRow)
    (hnd : (gs.map groupKey).Nodup) :
    ∀ g2 ∈ insertRow gs r,
      (g2 ∈ gs ∧ groupKey g2 ≠ rowKey r)
      ∨ (groupKey g2 = rowKey r
          ∧ ((rowKey r ∉ gs.map groupKey ∧ g2 = freshGroup r)
             ∨ (∃ g ∈ gs, groupKey g = rowKey r ∧ g2.symbol = g.symbol
                 ∧ g2.window_start = g.window_start
                 ∧ g2.prices = g.prices ++ [r.price] ∧ g2.maxId = max g.maxId r.id))) := by
  induction gs with
  | nil =>
    intro g2 hg2
    simp only [insertRow, List.mem_singleton] at hg2
    subst hg2
    right
    exact ⟨rfl, Or.inl ⟨by simp, rfl⟩⟩
  | cons g gs ih =>
    intro g2 hg2
    rw [List.map_cons, List.nodup_cons] at hnd
    by_cases h : groupKey g = rowKey r
    · simp only [insertRow, if_pos h] at hg2
      rcases List.mem_cons.mp hg2 with rfl | hmem
      · right
        refine ⟨by simpa [groupKey] using h, Or.inr ⟨g, List.mem_cons_self g gs, h, rfl, rfl, rfl, rfl⟩⟩
      · left
        refine ⟨List.mem_cons_of_mem _ hmem, ?_⟩
        intro hk
        have hgk : groupKey g2 ∈ gs.map groupKey := List.mem_map_of_mem groupKey hmem
        rw [hk, ← h] at hgk
        exact hnd.1 hgk
    · simp only [insertRow, if_neg h] at hg2
      rcases List.mem_cons.mp hg2 with rfl | hmem
      · exact Or.inl ⟨List.mem_cons_self _ _, h⟩
      · rcases ih hnd.2 g2 hmem with ⟨hin, hne⟩ | ⟨hk, hrest⟩
        · exact Or.inl ⟨List.mem_cons_of_mem _ hin, hne⟩
        · right
          refine ⟨hk, ?_⟩
          rcases hrest with ⟨hnotin, hg2eq⟩ | ⟨g3, hg3, hgk, he⟩
          · refine Or.inl ⟨?_, hg2eq⟩
            rw [List.map_cons, List.mem_cons]
            rintro (hh | hh)
            · exact h hh.symm
            · exact hnotin hh
          · exact Or.inr ⟨g3, List.mem_cons_of_mem _ hg3, hgk, he⟩

theorem makeGroups_spec (rows : List UniquePriceRow) :
    ((makeGroups rows).map groupKey = firstKeys (rows.map rowKey))
    ∧ ∀ g ∈ makeGroups rows,
        g.prices = (keyRows rows (groupKey g)).map (fun r => r.price)
        ∧ g.maxId = ((keyRows rows (groupKey g)).map (fun r => r.id)).foldl max 0 := by
  induction rows using List.reverseRecOn with
  | nil =>
    constructor
    · rfl
    · intro g hg
      cases hg
  | append_singleton rows r ih =>
    obtain ⟨ihk, ihg⟩ := ih
    have hnd : ((makeGroups rows).map groupKey).Nodup := by
      rw [ihk]
      exact firstKeys_nodup _
    constructor
    · rw [makeGroups_append, insertRow_map_key, ihk]
      simp only [List.map_append, List.map_cons, List.map_nil]
      rw [firstKeys_append_singleton]
    · intro g hg
      rw [makeGroups_append] at hg
      rcases insertRow_mem_spec _ r hnd g hg with ⟨hin, hne⟩ | ⟨hk, hrest⟩
      · have hkr : keyRows (rows ++ [r]) (groupKey g) = keyRows rows (groupKey g) := by
          unfold keyRows
          rw [List.filter_append]
          have : List.filter (fun r2 => decide (rowKey r2 = groupKey g)) [r] = [] := by
            simp only [List.filter_cons, List.filter_nil, decide_eq_true_eq]
            rw [if_neg]
            intro hh
            exact hne hh.symm
          rw [this, List.append_nil]
        rw [hkr]
        exact ihg g hin
      · rcases hrest with ⟨hnotin, rfl⟩ | ⟨g3, hg3, hgk, hsym, hws, hpr, hmax⟩
        · have hkey : groupKey (freshGroup r) = rowKey r := rfl
          rw [hkey]
          have hempty : keyRows rows (rowKey r) = [] := by
            unfold keyRows
            rw [List.filter_eq_nil_iff]
            intro x hx
            simp only [decide_eq_true_eq]
            intro hh
            rw [ihk, mem_firstKeys] at hnotin
            exact hnotin (hh ▸ List.mem_map_of_mem rowKey hx)
          have hfull : keyRows (rows ++ [r]) (rowKey r) = [r] := by
            unfold keyRows
            rw [List.filter_append]
            unfold keyRows at hempty
            rw [hempty]
            simp
          rw [hfull]
          exact ⟨rfl, by simp [freshGroup]⟩
        · have hkey3 : groupKey g = groupKey g3 := by rw [hk, hgk]
          have hfull : keyRows (rows ++ [r]) (groupKey g) = keyRows rows (groupKey g) ++ [r] := by
            unfold keyRows
            rw [List.filter_append]
            have : List.filter (fun r2 => decide (rowKey r2 = groupKey g)) [r] = [r] := by
              simp [hk]
            rw [this]
          obtain ⟨hp3, hm3⟩ := ihg g3 hg3
          constructor
          · rw [hfull, List.map_append, hpr, hp3, hkey3]
            simp
          · rw [hfull, List.map_append, hmax, hm3, hkey3]
            simp [List.foldl_concat]

/-! ### First-encounter ordering lemmas -/

theorem keyRows_ne_nil_of_mem (rows : List UniquePriceRow) (k : String × Nat)
    (hk : k ∈ rows.map rowKey) : keyRows rows k ≠ [] := by
  rcases List.mem_map.mp hk with ⟨r0, hr0, hkey⟩
  have hmem : r0 ∈ keyRows rows k := by
    unfold keyRows
    rw [List.mem_filter]
    exact ⟨hr0, by simp [hkey]⟩
  exact List.ne_nil_of_mem hmem

theorem keyRows_head_spec (rows : List UniquePriceRow) (k : String × Nat)
    (hne : keyRows rows k ≠ []) :
    ∃ h1, h1 ∈ rows ∧ rowKey h1 = k ∧ firstIdOf rows k = h1.id := by
  rcases hk : keyRows rows k with _ | ⟨h1, tl⟩
  · exact absurd hk hne
  · have hmem : h1 ∈ keyRows rows k := by
      rw [hk]
      exact List.mem_cons_self _ _
    unfold keyRows at hmem
    rw [List.mem_filter] at hmem
    refine ⟨h1, hmem.1, by simpa using hmem.2, ?_⟩
    unfold firstIdOf
    rw [hk]
    rfl

theorem firstIdOf_append (rows : List UniquePriceRow) (r : UniquePriceRow) (k : String × Nat)
    (hne : keyRows rows k ≠ []) :
    firstIdOf (rows ++ [r]) k = firstIdOf rows k := by
  unfold keyRows at hne
  unfold firstIdOf keyRows
  rw [List.filter_append, List.map_append]
  cases hk : List.filter (fun r2 => decide (rowKey r2 = k)) rows with
  | nil => exact absurd hk hne
  | cons h1 tl => rfl

theorem firstIdOf_append_new (rows : List UniquePriceRow) (r : UniquePriceRow)
    (hnew : rowKey r ∉ rows.map rowKey) :
    firstIdOf (rows ++ [r]) (rowKey r) = r.id := by
  have hempty : List.filter (fun r2 => decide (rowKey r2 = rowKey r)) rows = [] := by
    rw [List.filter_eq_nil_iff]
    intro x hx
    simp only [decide_eq_true_eq]
    intro hh
    exact hnew (hh ▸ List.mem_map_of_mem rowKey hx)
  unfold firstIdOf keyRows
  rw [List.filter_append, hempty]
  simp

/-- In a batch sorted by (window_start, id), the keys in first-encounter
order have non-decreasing window_start, and among equal window_start
values non-decreasing first-row id. -/
theorem firstKeys_pairwise_of_sorted (rows : List UniquePriceRow) (hs : List.Sorted rowLe rows) :
    List.Pairwise (fun k1 k2 : String × Nat =>
      k1.2 ≤ k2.2 ∧ (k1.2 = k2.2 → firstIdOf rows k1 ≤ firstIdOf rows k2))
      (firstKeys (rows.map rowKey)) := by
  induction rows using List.reverseRecOn with
  | nil => simp [firstKeys]
  | append_singleton rows r ih =>
    have hs2 := hs
    rw [List.Sorted, List.pairwise_append] at hs2
    obtain ⟨hs1, -, hlast⟩ := hs2
    have hlast2 : ∀ x ∈ rows, rowLe x r :=
      fun x hx => hlast x hx r (List.mem_singleton.mpr rfl)
    have ihp := ih hs1
    have hpre : List.Pairwise (fun k1 k2 : String × Nat =>
        k1.2 ≤ k2.2 ∧ (k1.2 = k2.2 →
          firstIdOf (rows ++ [r]) k1 ≤ firstIdOf (rows ++ [r]) k2))
        (firstKeys (rows.map rowKey)) := by
      refine ihp.imp_of_mem ?_
      intro k1 k2 hk1 hk2 hR
      refine ⟨hR.1, fun he => ?_⟩
      rw [firstIdOf_append rows r k1
          (keyRows_ne_nil_of_mem rows k1 ((mem_firstKeys _ k1).mp hk1)),
        firstIdOf_append rows r k2
          (keyRows_ne_nil_of_mem rows k2 ((mem_firstKeys _ k2).mp hk2))]
      exact hR.2 he
    simp only [List.map_append, List.map_cons, List.map_nil]
    rw [firstKeys_append_singleton]
    by_cases h : rowKey r ∈ firstKeys (rows.map rowKey)
    · rw [if_pos h]
      exact hpre
    · rw [if_neg h]
      rw [List.pairwise_append]
      refine ⟨hpre, List.pairwise_singleton _ _, ?_⟩
      intro k1 hk1 k2 hk2
      rw [List.mem_singleton] at hk2
      subst hk2
      have hk1m : k1 ∈ rows.map rowKey := (mem_firstKeys _ k1).mp hk1
      obtain ⟨h1, hh1, hh1k, hh1id⟩ :=
        keyRows_head_spec rows k1 (keyRows_ne_nil_of_mem rows k1 hk1m)
      have hle : rowLe h1 r := hlast2 h1 hh1
      have hws : k1.2 = h1.window_start := by
        rw [← hh1k]
        rfl
      have hrsnd : (rowKey r).2 = r.window_start := rfl
      unfold rowLe at hle
      constructor
      · rw [hws, hrsnd]
        omega
      · intro he
        rw [firstIdOf_append rows r k1 (keyRows_ne_nil_of_mem rows k1 hk1m),
          firstIdOf_append_new rows r ((mem_firstKeys _ (rowKey r)).not.mp h), hh1id]
        rw [hws, hrsnd] at he
        omega

/-! ### Submission loop lemmas -/

theorem runGroups_cursor_spec (submit : WindowGroup → Bool) (gs : List WindowGroup) :
    ∀ c c0 : Nat, c0 ≤ c → (∀ g ∈ gs, c0 < g.maxId) →
      c0 ≤ (runGroups submit c gs).1
      ∧ ((runGroups submit c gs).1 = c
          ∨ ∃ g ∈ gs, submit g = true ∧ (runGroups submit c gs).1 = g.maxId) := by
  induction gs with
  | nil =>
    intro c c0 hc _
    exact ⟨hc, Or.inl rfl⟩
  | cons g gs ih =>
    intro c c0 hc hall
    by_cases hsub : submit g = true
    · have hmax : c0 ≤ g.maxId := le_of_lt (hall g (List.mem_cons_self g gs))
      have hrec := ih g.maxId c0 hmax (fun g2 hg2 => hall g2 (List.mem_cons_of_mem _ hg2))
      simp only [runGroups, hsub, if_true]
      refine ⟨hrec.1, ?_⟩
      rcases hrec.2 with heq | ⟨g2, hg2, hsub2, heq⟩
      · exact Or.inr ⟨g, List.mem_cons_self g gs, hsub, heq⟩
      · exact Or.inr ⟨g2, List.mem_cons_of_mem _ hg2, hsub2, heq⟩
    · simp only [runGroups, hsub, if_false]
      exact ⟨hc, Or.inl rfl⟩

theorem group_maxId_gt (rows : List UniquePriceRow) (c : Nat)
    (hrows : ∀ r ∈ rows, c < r.id) :
    ∀ g ∈ makeGroups rows, c < g.maxId := by
  intro g hg
  obtain ⟨hkeys, hspec⟩ := makeGroups_spec rows
  obtain ⟨-, hmax⟩ := hspec g hg
  have hkmem : groupKey g ∈ (makeGroups rows).map groupKey := List.mem_map_of_mem groupKey hg
  rw [hkeys, mem_firstKeys] at hkmem
  rcases List.mem_map.mp hkmem with ⟨r0, hr0, hkey⟩
  have hr0k : r0 ∈ keyRows rows (groupKey g) := by
    unfold keyRows
    rw [List.mem_filter]
    exact ⟨hr0, by simp [hkey]⟩
  have hidmem : r0.id ∈ (keyRows rows (groupKey g)).map (fun r => r.id) :=
    List.mem_map_of_mem _ hr0k
  have hle : r0.id ≤ ((keyRows rows (groupKey g)).map (fun r => r.id)).foldl max 0 :=
    foldl_max_le_of_mem _ 0 r0.id hidmem
  rw [hmax]
  exact lt_of_lt_of_le (hrows r0 hr0) hle

theorem runGroups_split (submit : WindowGroup → Bool) (g : WindowGroup)
    (gs2 : List WindowGroup) (h2 : submit g = false) :
    ∀ (gs1 : List WindowGroup) (c : Nat), (∀ h ∈ gs1, submit h = true) →
      runGroups submit c (gs1 ++ g :: gs2) = (lastCursor c gs1, gs1 ++ [g]) := by
  intro gs1
  induction gs1 with
  | nil =>
    intro c _
    simp [runGroups, h2, lastCursor]
  | cons h0 gs1 ih =>
    intro c h1
    have hs : submit h0 = true := h1 h0 (List.mem_cons_self _ _)
    simp only [List.cons_append, runGroups, hs, if_true, lastCursor, List.append_eq]
    rw [ih h0.maxId (fun h hh => h1 h (List.mem_cons_of_mem _ hh))]

/-! ### Claim theorems (submission engine) -/

/-- Claim C3: across ticks the cursor never decreases: a tick started at
cursor c ends at a value at least c, and the end value either is c (no
advancement) or is the maxId of some fetched group whose submission
returned success. -/
theorem checkAndUpdate_cursor_monotone (submit : WindowGroup → Bool)
    (table : List UniquePriceRow) (cursor : Nat) :
    cursor ≤ (checkAndUpdate submit table cursor).1
    ∧ ((checkAndUpdate submit table cursor).1 = cursor
        ∨ ∃ g ∈ makeGroups (fetchBatch table cursor), submit g = true
            ∧ (checkAndUpdate submit table cursor).1 = g.maxId) :=
  runGroups_cursor_spec submit (makeGroups (fetchBatch table cursor)) cursor cursor le_rfl
    (group_maxId_gt (fetchBatch table cursor) cursor (fetchBatch_id_gt table cursor))

/-- Claim C4: within a tick, the groups attempted are exactly the
successful prefix plus the first failing group: nothing after the
failure is attempted, the cursor ends at the maxId of the last
successful group (the pre-tick cursor when there is none), and the next
fetch at that cursor re-queries exactly the rows with id above it
(whenever they fit the LIMIT), again in (window_start, id) order. -/
theorem checkAndUpdate_failure_containment (submit : WindowGroup → Bool)
    (table : List UniquePriceRow) (c : Nat) (gs1 gs2 : List WindowGroup) (g : WindowGroup)
    (h1 : ∀ h ∈ gs1, submit h = true) (h2 : submit g = false) :
    (runGroups submit c (gs1 ++ g :: gs2)).2 = gs1 ++ [g]
    ∧ (runGroups submit c (gs1 ++ g :: gs2)).1 = lastCursor c gs1
    ∧ List.Sorted rowLe (fetchBatch table (lastCursor c gs1))
    ∧ ((table.filter (fun r => decide (lastCursor c gs1 < r.id))).length ≤ 100 →
        ∀ r, r ∈ fetchBatch table (lastCursor c gs1)
          ↔ r ∈ table ∧ lastCursor c gs1 < r.id) := by
  rw [runGroups_split submit g gs2 h2 gs1 c h1]
  exact ⟨rfl, rfl, fetchBatch_sorted _ _, fetchBatch_mem_iff _ _⟩

/-- A group submitted successfully in the witness tick. -/
def gA : WindowGroup := { symbol := "XLMUSDT", prices := [1], window_start := 0, maxId := 3 }

/-- The group whose submission fails in the witness tick. -/
def gB : WindowGroup := { symbol := "XLMUSDT", prices := [2], window_start := 10000, maxId := 7 }

/-- A later group that must not be attempted in the witness tick. -/
def gC : WindowGroup := { symbol := "XLMUSDT", prices := [3], window_start := 20000, maxId := 9 }

/-- A submission oracle that succeeds exactly on gA. -/
def submitW : WindowGroup → Bool := fun g => decide (g.maxId ≤ 3)

theorem checkAndUpdate_failure_containment_witness :
    (runGroups submitW 0 ([gA] ++ gB :: [gC])).2 = [gA] ++ [gB]
    ∧ (runGroups submitW 0 ([gA] ++ gB :: [gC])).1 = lastCursor 0 [gA] := by
  have h := checkAndUpdate_failure_containment submitW [] 0 [gA] [gC] gB
    (by decide) (by decide)
  exact ⟨h.1, h.2.1⟩

/-- Claim C5: per tick the fetched batch holds only rows with id above
the cursor, at most 100 of them, sorted by (window_start, id); the
groups are keyed by (symbol, window_start) in first-encounter order,
each carrying the batch-ordered list of its prices and the maximum row
id among its rows; the group sequence is non-decreasing in window_start
and, at equal window_start, non-decreasing in first-row id; and the tick
submits exactly this group sequence through the sequential loop. -/
theorem checkAndUpdate_grouping_order (submit : WindowGroup → Bool)
    (table : List UniquePriceRow) (cursor : Nat) :
    (∀ r ∈ fetchBatch table cursor, cursor < r.id)
    ∧ (fetchBatch table cursor).length ≤ 100
    ∧ List.Sorted rowLe (fetchBatch table cursor)
    ∧ (makeGroups (fetchBatch table cursor)).map groupKey
        = firstKeys ((fetchBatch table cursor).map rowKey)
    ∧ (∀ g ∈ makeGroups (fetchBatch table cursor),
        g.prices = (keyRows (fetchBatch table cursor) (groupKey g)).map (fun r => r.price)
        ∧ g.maxId = ((keyRows (fetchBatch table cursor) (groupKey g)).map (fun r => r.id)).foldl max 0)
    ∧ List.Pairwise (fun g1 g2 : WindowGroup =>
        g1.window_start ≤ g2.window_start
        ∧ (g1.window_start = g2.window_start →
            firstIdOf (fetchBatch table cursor) (groupKey g1)
              ≤ firstIdOf (fetchBatch table cursor) (groupKey g2)))
        (makeGroups (fetchBatch table cursor))
    ∧ checkAndUpdate submit table cursor
        = runGroups submit cursor (makeGroups (fetchBatch table cursor)) := by
  refine ⟨fetchBatch_id_gt table cursor, fetchBatch_len_le table cursor,
    fetchBatch_sorted table cursor, (makeGroups_spec _).1, (makeGroups_spec _).2, ?_, rfl⟩
  have hp := firstKeys_pairwise_of_sorted _ (fetchBatch_sorted table cursor)
  rw [← (makeGroups_spec (fetchBatch table cursor)).1, List.pairwise_map] at hp
  exact hp.imp (fun hR => ⟨hR.1, hR.2⟩)

end PriceFeed
